import Mathlib

/-!
Verification of the roslibrust ROS1 TCPROS connection-header codec
(`src/roslibrust/src/ros1/tcpros.rs`) and of the package-discovery helper
(`src/src/util.rs`), as a shallow embedding.

Byte slices are modelled as `List Nat` (each element one byte).  Rust strings
(`&str` / `String`) are modelled as their UTF-8 byte lists; the Rust type
invariant that a string is valid UTF-8 becomes the predicate `utf8Valid`.
The nom combinators used by the source (`le_u32`, `take_until "="`, `take n`)
are embedded as total functions returning `Except NomErr (remaining, value)`,
matching nom's complete-input behaviour (errors carry the input at the point
of failure together with the nom `ErrorKind`).  `u32` arithmetic from the
source (`as u32` casts) is rendered with explicit `% 4294967296`.
-/

/-- The nom error codes produced by the source: nom signals `Eof` for a short
numeric/`take` read, `TakeUntil` when the `=` delimiter is absent, and the
source itself raises `LengthValue` (field length underflow), `AlphaNumeric`
(invalid UTF-8) and `Count` (outer length overrun). -/
inductive ErrorKind where
  | eof
  | takeUntil
  | lengthValue
  | alphaNumeric
  | count
deriving DecidableEq, Repr

/-- A nom-style error: the input at the failure point plus the error code.
`ConnectionHeader::from_bytes` wraps this into a `std::io::Error` of kind
`InvalidData`; the wrapping is injective on outcome (ok vs error), so the
model keeps the underlying nom error. -/
structure NomErr where
  input : List Nat
  kind : ErrorKind
deriving DecidableEq, Repr

/-- Rust `u32::checked_sub`. -/
def checked_sub (a b : Nat) : Option Nat :=
  if b ≤ a then some (a - b) else none

/-- The four little-endian bytes of the low 32 bits of `n`
(`byteorder::WriteBytesExt::write_u32::<LittleEndian>`). -/
def le32 (n : Nat) : List Nat :=
  [n % 256, n / 256 % 256, n / 65536 % 256, n / 16777216 % 256]

/-- nom `number::complete::le_u32`: read a 4-byte little-endian unsigned
integer, failing with `Eof` when fewer than 4 bytes remain. -/
def le_u32 (input : List Nat) : Except NomErr (List Nat × Nat) :=
  match input with
  | b0 :: b1 :: b2 :: b3 :: rest =>
      .ok (rest, b0 + 256 * b1 + 65536 * b2 + 16777216 * b3)
  | _ => .error ⟨input, .eof⟩

/-- Split a byte list at the first occurrence of byte 61 (the character
`=`): `some (before, from61)` where `from61` still starts with the 61. -/
def splitAtEq : List Nat → Option (List Nat × List Nat)
  | [] => none
  | b :: rest =>
    if b = 61 then some ([], b :: rest)
    else
      match splitAtEq rest with
      | some (pre, post) => some (b :: pre, post)
      | none => none

/-- nom `bytes::complete::take_until "="`: the bytes before the first `=`
are returned, the remaining input still starts at the `=`; failure code
`TakeUntil` when no `=` occurs in the remaining input. -/
def takeUntilEq (input : List Nat) : Except NomErr (List Nat × List Nat) :=
  match splitAtEq input with
  | some (pre, post) => .ok (post, pre)
  | none => .error ⟨input, .takeUntil⟩

/-- nom `bytes::complete::take n`: take exactly `n` bytes, failing with
`Eof` when fewer remain (never reading past the end of the buffer). -/
def takeN (n : Nat) (input : List Nat) : Except NomErr (List Nat × List Nat) :=
  if n ≤ input.length then .ok (input.drop n, input.take n)
  else .error ⟨input, .eof⟩

/-- A UTF-8 continuation byte (`0x80..=0xBF`). -/
def isUtf8Cont (b : Nat) : Bool := 128 ≤ b && b ≤ 191

/-- `std::str::from_utf8` succeeds exactly when this validator accepts the
byte list: standard UTF-8 (RFC 3629), rejecting overlong encodings,
surrogates and code points above U+10FFFF. -/
def utf8Valid : List Nat → Bool
  | [] => true
  | b :: rest =>
    if b < 128 then utf8Valid rest
    else if 194 ≤ b && b ≤ 223 then
      match rest with
      | c1 :: rest2 => isUtf8Cont c1 && utf8Valid rest2
      | [] => false
    else if b = 224 then
      match rest with
      | c1 :: c2 :: rest2 =>
          (160 ≤ c1 && c1 ≤ 191) && isUtf8Cont c2 && utf8Valid rest2
      | _ => false
    else if (225 ≤ b && b ≤ 236) || b = 238 || b = 239 then
      match rest with
      | c1 :: c2 :: rest2 => isUtf8Cont c1 && isUtf8Cont c2 && utf8Valid rest2
      | _ => false
    else if b = 237 then
      match rest with
      | c1 :: c2 :: rest2 =>
          (128 ≤ c1 && c1 ≤ 159) && isUtf8Cont c2 && utf8Valid rest2
      | _ => false
    else if b = 240 then
      match rest with
      | c1 :: c2 :: c3 :: rest2 =>
          (144 ≤ c1 && c1 ≤ 191) && isUtf8Cont c2 && isUtf8Cont c3 && utf8Valid rest2
      | _ => false
    else if 241 ≤ b && b ≤ 243 then
      match rest with
      | c1 :: c2 :: c3 :: rest2 =>
          isUtf8Cont c1 && isUtf8Cont c2 && isUtf8Cont c3 && utf8Valid rest2
      | _ => false
    else if b = 244 then
      match rest with
      | c1 :: c2 :: c3 :: rest2 =>
          (128 ≤ c1 && c1 ≤ 143) && isUtf8Cont c2 && isUtf8Cont c3 && utf8Valid rest2
      | _ => false
    else false

/-- ASCII bytes of the string "callerid". -/
def keyCallerid : List Nat := [99, 97, 108, 108, 101, 114, 105, 100]

/-- ASCII bytes of the string "message_definition". -/
def keyMessageDefinition : List Nat :=
  [109, 101, 115, 115, 97, 103, 101, 95, 100, 101, 102, 105, 110, 105, 116, 105, 111, 110]

/-- ASCII bytes of the string "md5sum". -/
def keyMd5sum : List Nat := [109, 100, 53, 115, 117, 109]

/-- ASCII bytes of the string "topic". -/
def keyTopic : List Nat := [116, 111, 112, 105, 99]

/-- ASCII bytes of the string "type". -/
def keyType : List Nat := [116, 121, 112, 101]

/-- ASCII bytes of the string "latching". -/
def keyLatching : List Nat := [108, 97, 116, 99, 104, 105, 110, 103]

/-- ASCII bytes of the string "tcp_nodelay". -/
def keyTcpNodelay : List Nat := [116, 99, 112, 95, 110, 111, 100, 101, 108, 97, 121]

/-- The in-memory connection header (struct `ConnectionHeader` in
`tcpros.rs`): text fields are UTF-8 byte lists, booleans are `Bool`. -/
structure ConnectionHeader where
  caller_id : List Nat
  latching : Bool
  msg_definition : List Nat
  md5sum : List Nat
  topic : List Nat
  topic_type : List Nat
  tcp_nodelay : Bool
deriving DecidableEq, Repr

/-- `ConnectionHeader::default()` from `#[derive(Default)]`: empty strings
and false booleans. -/
def ConnectionHeader.default : ConnectionHeader :=
  { caller_id := []
    latching := false
    msg_definition := []
    md5sum := []
    topic := []
    topic_type := []
    tcp_nodelay := false }

/-- The `match key { ... }` dispatch in `ConnectionHeader::parse`: a
recognized name overwrites the corresponding record field (booleans by the
lenient rule value `!=` "0", byte 48), an unrecognized name is only logged
and leaves the record unchanged. -/
def applyField (header : ConnectionHeader) (key value : List Nat) : ConnectionHeader :=
  if key = keyCallerid then { header with caller_id := value }
  else if key = keyMessageDefinition then { header with msg_definition := value }
  else if key = keyMd5sum then { header with md5sum := value }
  else if key = keyTopic then { header with topic := value }
  else if key = keyType then { header with topic_type := value }
  else if key = keyLatching then { header with latching := value != [48] }
  else if key = keyTcpNodelay then { header with tcp_nodelay := value != [48] }
  else header

/-- `ConnectionHeader::parse_header_field`: read the 4-byte field length,
take the name up to the first `=`, consume the `=`, check the field length
leaves room for the value (`len.checked_sub(field_name.len() as u32 + 1)`,
with the source's `as u32` casts rendered as `% 4294967296`), take the
value, and validate both name and value as UTF-8. -/
def parse_header_field (input : List Nat) :
    Except NomErr (List Nat × (List Nat × List Nat)) :=
  match le_u32 input with
  | .error e => .error e
  | .ok (input1, len) =>
    match takeUntilEq input1 with
    | .error e => .error e
    | .ok (input2, field_name) =>
      match takeN 1 input2 with
      | .error e => .error e
      | .ok (input3, _eq) =>
        match checked_sub len ((field_name.length % 4294967296 + 1) % 4294967296) with
        | none => .error ⟨input3, .lengthValue⟩
        | some remaining_len =>
          match takeN remaining_len input3 with
          | .error e => .error e
          | .ok (input4, value) =>
            if utf8Valid field_name then
              if utf8Valid value then .ok (input4, (field_name, value))
              else .error ⟨input4, .alphaNumeric⟩
            else .error ⟨input4, .alphaNumeric⟩

/-- The `while len > 0` loop of `ConnectionHeader::parse`, indexed by fuel
for structural recursion.  Each successful field consumes at least 5 bytes
of input, so with `fuel ≥ input.length` (as used in `parse`, and as the
fuel-irrelevance lemma below certifies) the fuel branch coincides with the
source's behaviour: out of fuel forces `input = []`, where the field
subparser fails with exactly the same `Eof` error.  The decrement
`len.checked_sub(diff as u32)` keeps the source's `as u32` cast as
`% 4294967296`. -/
def parseFieldsF (fuel : Nat) (len : Nat) (input : List Nat)
    (header : ConnectionHeader) : Except NomErr (List Nat × ConnectionHeader) :=
  match fuel with
  | 0 => if len = 0 then .ok (input, header) else .error ⟨input, .eof⟩
  | fuel + 1 =>
    if len = 0 then .ok (input, header)
    else
      match parse_header_field input with
      | .error e => .error e
      | .ok (shorter_input, (key, value)) =>
        let header1 := applyField header key value
        let diff := input.length - shorter_input.length
        match checked_sub len (diff % 4294967296) with
        | none => .error ⟨input, .count⟩
        | some shorter => parseFieldsF fuel shorter shorter_input header1

/-- `ConnectionHeader::parse`: read the outer 4-byte length, then run the
field loop starting from the default record. -/
def parse (input : List Nat) : Except NomErr (List Nat × ConnectionHeader) :=
  match le_u32 input with
  | .error e => .error e
  | .ok (input1, len) => parseFieldsF input1.length len input1 ConnectionHeader.default

/-- `ConnectionHeader::from_bytes`: run `parse` to completion (`finish`),
keep the parsed header, drop the unconsumed remainder. -/
def from_bytes (header_data : List Nat) : Except NomErr ConnectionHeader :=
  match parse header_data with
  | .ok (_, h) => .ok h
  | .error e => .error e

/-- The wire text of a boolean field value: "1" (byte 49) or "0" (byte 48). -/
def boolBytes (b : Bool) : List Nat := if b then [49] else [48]

/-- One encoded field as written by `to_bytes`: the 4-byte little-endian
length of the `name=value` text (`.len() as u32`), then the name, the `=`
(byte 61) and the value. -/
def encodeField (key value : List Nat) : List Nat :=
  le32 ((key.length + 1 + value.length) % 4294967296) ++ key ++ 61 :: value

/-- `ConnectionHeader::to_bytes`: a zero placeholder for the outer length,
the fields in source order (callerid, latching, md5sum, message_definition,
then tcp_nodelay only when `to_publisher`, then topic, type), and finally
the outer length `(header_data.len() - 4) as u32` patched over the first
four bytes.  The Rust function returns `std::io::Result`, but every write
targets an in-memory `Vec` and is infallible, so the result is always `Ok`
of this byte list. -/
def ConnectionHeader.to_bytes (header : ConnectionHeader) (to_publisher : Bool) :
    List Nat :=
  let header_data :=
    le32 0
    ++ encodeField keyCallerid header.caller_id
    ++ encodeField keyLatching (boolBytes header.latching)
    ++ encodeField keyMd5sum header.md5sum
    ++ encodeField keyMessageDefinition header.msg_definition
    ++ (if to_publisher then encodeField keyTcpNodelay (boolBytes header.tcp_nodelay) else [])
    ++ encodeField keyTopic header.topic
    ++ encodeField keyType header.topic_type
  le32 ((header_data.length - 4) % 4294967296) ++ header_data.drop 4

/-- Stated from the spec's words (§4.2) for the refinement claim about the
encoder: each field is "a 4-byte little-endian length followed by the
name=value text". -/
def specField (name value : List Nat) : List Nat :=
  le32 (name.length + 1 + value.length) ++ name ++ 61 :: value

/-- Stated from the spec's words (§4.2) for the refinement claim about the
encoder: the fields in the fixed order callerid, latching, md5sum,
message_definition, then tcp_nodelay only if `to_publisher`, then topic,
then type, preceded by a 4-byte little-endian outer length equal to the
total bytes written minus the 4 bytes reserved for that length, booleans
rendered "1"/"0". -/
def specEncode (header : ConnectionHeader) (to_publisher : Bool) : List Nat :=
  let fields :=
    specField keyCallerid header.caller_id
    ++ specField keyLatching (boolBytes header.latching)
    ++ specField keyMd5sum header.md5sum
    ++ specField keyMessageDefinition header.msg_definition
    ++ (if to_publisher then specField keyTcpNodelay (boolBytes header.tcp_nodelay) else [])
    ++ specField keyTopic header.topic
    ++ specField keyType header.topic_type
  le32 fields.length ++ fields

/-- The field-name trace of the parse loop: the same recursion as
`parseFieldsF` but collecting, in order, the name of every field the loop
consumes.  Used to state which names are present on the wire. -/
def parseKeysF (fuel : Nat) (len : Nat) (input : List Nat) :
    Except NomErr (List Nat × List (List Nat)) :=
  match fuel with
  | 0 => if len = 0 then .ok (input, []) else .error ⟨input, .eof⟩
  | fuel + 1 =>
    if len = 0 then .ok (input, [])
    else
      match parse_header_field input with
      | .error e => .error e
      | .ok (shorter_input, (key, _value)) =>
        let diff := input.length - shorter_input.length
        match checked_sub len (diff % 4294967296) with
        | none => .error ⟨input, .count⟩
        | some shorter =>
          match parseKeysF fuel shorter shorter_input with
          | .error e => .error e
          | .ok (rest, keys) => .ok (rest, key :: keys)

/-- The names of the fields `from_bytes` consumes from a byte buffer. -/
def headerKeys (header_data : List Nat) : Except NomErr (List (List Nat)) :=
  match le_u32 header_data with
  | .error e => .error e
  | .ok (input1, len) =>
    match parseKeysF input1.length len input1 with
    | .error e => .error e
    | .ok (_, keys) => .ok keys

/-- A header block holding exactly one field named "latching" with the given
value bytes: outer length, then the single encoded field. -/
def latchingWire (value : List Nat) : List Nat :=
  le32 (13 + value.length) ++ encodeField keyLatching value

/-- The 180-byte connection header of the source's `test_header_parse`
test: outer length 0xB0, fields message_definition, callerid, latching,
md5sum, topic, type. -/
def validHeaderExample : List Nat :=
  [176, 0, 0, 0, 32, 0, 0, 0, 109, 101, 115, 115, 97, 103, 101, 95, 100, 101, 102, 105,
   110, 105, 116, 105, 111, 110, 61, 115, 116, 114, 105, 110, 103, 32, 100, 97, 116, 97, 10, 10,
   37, 0, 0, 0, 99, 97, 108, 108, 101, 114, 105, 100, 61, 47, 114, 111, 115, 116, 111, 112,
   105, 99, 95, 52, 55, 54, 55, 95, 49, 51, 49, 54, 57, 49, 50, 55, 52, 49, 53, 53,
   55, 10, 0, 0, 0, 108, 97, 116, 99, 104, 105, 110, 103, 61, 49, 39, 0, 0, 0, 109,
   100, 53, 115, 117, 109, 61, 57, 57, 50, 99, 101, 56, 97, 49, 54, 56, 55, 99, 101, 99,
   56, 99, 56, 98, 100, 56, 56, 51, 101, 99, 55, 51, 99, 97, 52, 49, 100, 49, 14, 0,
   0, 0, 116, 111, 112, 105, 99, 61, 47, 99, 104, 97, 116, 116, 101, 114, 20, 0, 0, 0,
   116, 121, 112, 101, 61, 115, 116, 100, 95, 109, 115, 103, 115, 47, 83, 116, 114, 105, 110, 103]

/-- The record the source's test expects `validHeaderExample` to decode to. -/
def validHeaderModel : ConnectionHeader :=
  { caller_id := [47, 114, 111, 115, 116, 111, 112, 105, 99, 95, 52, 55, 54, 55, 95,
                  49, 51, 49, 54, 57, 49, 50, 55, 52, 49, 53, 53, 55]
    latching := true
    msg_definition := [115, 116, 114, 105, 110, 103, 32, 100, 97, 116, 97, 10, 10]
    md5sum := [57, 57, 50, 99, 101, 56, 97, 49, 54, 56, 55, 99, 101, 99, 56, 99, 56,
               98, 100, 56, 56, 51, 101, 99, 55, 51, 99, 97, 52, 49, 100, 49]
    topic := [47, 99, 104, 97, 116, 116, 101, 114]
    topic_type := [115, 116, 100, 95, 109, 115, 103, 115, 47, 83, 116, 114, 105, 110, 103]
    tcp_nodelay := false }

/-! Model of `src/src/util.rs`.  Paths are lists of components; a filesystem
is a predicate saying which paths exist.  `Path::ancestors` yields the path
itself, then each parent, down to the empty path. -/

/-- The ancestor listing of the first `k` components of `p`, longest first:
`[p.take k, p.take (k-1), ..., p.take 0]`. -/
def ancestorsFrom (p : List String) : Nat → List (List String)
  | 0 => [[]]
  | k + 1 => p.take (k + 1) :: ancestorsFrom p k

/-- Rust `Path::ancestors` on a relative path: the path itself, each parent
in turn, and finally the empty path. -/
def ancestors (p : List String) : List (List String) :=
  ancestorsFrom p p.length

/-- `find_package_from_path` from `util.rs`: iterate over all ancestors of
`e` (the path itself first, then upward); every ancestor `dir` for which
`dir/package.xml` exists overwrites `package_name` with the last component
of `dir`; the loop never exits early, so the surviving value comes from the
last matching ancestor visited.  `none` models the panic: either no
ancestor matched, or the matching directory has no last component. -/
def find_package_from_path (fs : List String → Bool) (e : List String) : Option String :=
  match ((ancestors e).filter fun dir => fs (dir ++ ["package.xml"])).getLast? with
  | some dir => dir.getLast?
  | none => none

/-- A tiny filesystem with nested packages: both `a/package.xml` and
`a/b/package.xml` exist. -/
def nestedPkgFs (p : List String) : Bool :=
  p = ["a", "package.xml"] || p = ["a", "b", "package.xml"]

/-- Concatenation of encoded fields, used to reason about the field block
of an encoded header one field at a time. -/
def encodeFieldsList : List (List Nat × List Nat) → List Nat
  | [] => []
  | (k, v) :: fs => encodeField k v ++ encodeFieldsList fs

/-- A well-formed wire header block built from name/value pairs: the
4-byte little-endian outer length of the field block, then the encoded
fields in order. -/
def fieldsWire (fs : List (List Nat × List Nat)) : List Nat :=
  le32 (encodeFieldsList fs).length ++ encodeFieldsList fs

/-- The name/value pairs `to_bytes` emits, in emission order. -/
def fieldPairs (header : ConnectionHeader) (to_publisher : Bool) :
    List (List Nat × List Nat) :=
  [(keyCallerid, header.caller_id),
   (keyLatching, boolBytes header.latching),
   (keyMd5sum, header.md5sum),
   (keyMessageDefinition, header.msg_definition)]
  ++ (if to_publisher then [(keyTcpNodelay, boolBytes header.tcp_nodelay)] else [])
  ++ [(keyTopic, header.topic), (keyType, header.topic_type)]

/-! Helper lemmas about the byte-level primitives. -/

theorem le32_mod (n : Nat) : le32 (n % 4294967296) = le32 n := by
  simp only [le32, List.cons.injEq, and_true]
  refine ⟨?_, ?_, ?_, ?_⟩ <;> omega

theorem le32_length (n : Nat) : (le32 n).length = 4 := rfl

theorem le_u32_le32 (n : Nat) (t : List Nat) :
    le_u32 (le32 n ++ t) = .ok (t, n % 4294967296) := by
  simp only [le32, List.cons_append, List.nil_append, le_u32]
  congr 1
  congr 1
  omega

theorem le_u32_ok {i r : List Nat} {n : Nat} (h : le_u32 i = .ok (r, n)) :
    ∃ b0 b1 b2 b3, i = b0 :: b1 :: b2 :: b3 :: r := by
  match i with
  | [] => simp [le_u32] at h
  | [a] => simp [le_u32] at h
  | [a, b] => simp [le_u32] at h
  | [a, b, c] => simp [le_u32] at h
  | a :: b :: c :: d :: rest =>
    simp only [le_u32, Except.ok.injEq, Prod.mk.injEq] at h
    exact ⟨a, b, c, d, by rw [h.1]⟩

theorem checked_sub_eq (a b : Nat) :
    checked_sub a b = if b ≤ a then some (a - b) else none := rfl

theorem takeN_ok {n : Nat} {i r v : List Nat} (h : takeN n i = .ok (r, v)) :
    n ≤ i.length ∧ r = i.drop n ∧ v = i.take n := by
  by_cases hn : n ≤ i.length
  · simp only [takeN, if_pos hn, Except.ok.injEq, Prod.mk.injEq] at h
    exact ⟨hn, h.1.symm, h.2.symm⟩
  · simp [takeN, if_neg hn] at h

theorem takeN_exact (v t : List Nat) : takeN v.length (v ++ t) = .ok (t, v) := by
  have hle : v.length ≤ (v ++ t).length := by simp
  simp [takeN, hle, List.drop_left, List.take_left]

theorem takeN_one_cons (a : Nat) (t : List Nat) : takeN 1 (a :: t) = .ok (t, [a]) := by
  simp [takeN, Nat.succ_le_succ (Nat.zero_le _)]

theorem takeN_append {n : Nat} {i r v : List Nat} (s : List Nat)
    (h : takeN n i = .ok (r, v)) : takeN n (i ++ s) = .ok (r ++ s, v) := by
  obtain ⟨hle, hr, hv⟩ := takeN_ok h
  have hle2 : n ≤ (i ++ s).length := by simp; omega
  simp only [takeN, if_pos hle2]
  rw [List.drop_append_of_le_length hle, List.take_append_of_le_length hle, ← hr, ← hv]

theorem splitAtEq_of_no_eq {k : List Nat} (hk : 61 ∉ k) (t : List Nat) :
    splitAtEq (k ++ 61 :: t) = some (k, 61 :: t) := by
  induction k with
  | nil => simp [splitAtEq]
  | cons b bs ih =>
    have hb : b ≠ 61 := fun h => hk (h ▸ List.mem_cons_self b bs)
    have hbs : 61 ∉ bs := fun h => hk (List.mem_cons_of_mem b h)
    simp [splitAtEq, hb, ih hbs]

theorem splitAtEq_some {i pre post : List Nat} (h : splitAtEq i = some (pre, post)) :
    i = pre ++ post ∧ 61 ∉ pre ∧ ∃ t, post = 61 :: t := by
  induction i generalizing pre post with
  | nil => simp [splitAtEq] at h
  | cons b bs ih =>
    by_cases hb : b = 61
    · simp only [splitAtEq, if_pos hb, Option.some.injEq, Prod.mk.injEq] at h
      obtain ⟨h1, h2⟩ := h
      subst h1
      exact ⟨by rw [← h2]; rfl, by simp, bs, by rw [← h2, hb]⟩
    · simp only [splitAtEq, if_neg hb] at h
      match hsp : splitAtEq bs with
      | none => rw [hsp] at h; simp at h
      | some (pre2, post2) =>
        rw [hsp] at h
        simp only [Option.some.injEq, Prod.mk.injEq] at h
        obtain ⟨h1, h2⟩ := h
        obtain ⟨ih1, ih2, t, ih3⟩ := ih hsp
        subst h2
        refine ⟨by rw [← h1]; simp [ih1], ?_, t, ih3⟩
        intro hmem
        rw [← h1] at hmem
        rcases List.mem_cons.mp hmem with h61 | h61
        · exact hb h61.symm
        · exact ih2 h61

theorem splitAtEq_append {i pre post : List Nat} (s : List Nat)
    (h : splitAtEq i = some (pre, post)) : splitAtEq (i ++ s) = some (pre, post ++ s) := by
  obtain ⟨h1, h2, t, h3⟩ := splitAtEq_some h
  subst h3
  rw [h1, List.append_assoc, List.cons_append, splitAtEq_of_no_eq h2]

theorem encodeField_length (k v : List Nat) :
    (encodeField k v).length = 4 + k.length + (1 + v.length) := by
  simp [encodeField, le32]
  omega

/-- On a well-framed field (name without `=`, total payload below 2^32),
`parse_header_field` consumes exactly the encoded field and returns the
name/value pair, the outcome depending only on the two UTF-8 checks. -/
theorem phf_encodeField {k v : List Nat} (rest : List Nat) (hk : 61 ∉ k)
    (hlen : k.length + 1 + v.length < 4294967296) :
    parse_header_field (encodeField k v ++ rest) =
      if utf8Valid k then
        if utf8Valid v then .ok (rest, (k, v))
        else .error ⟨rest, .alphaNumeric⟩
      else .error ⟨rest, .alphaNumeric⟩ := by
  have hshape : encodeField k v ++ rest =
      le32 ((k.length + 1 + v.length) % 4294967296) ++ (k ++ 61 :: (v ++ rest)) := by
    simp [encodeField]
  have hL : (k.length + 1 + v.length) % 4294967296 = k.length + 1 + v.length :=
    Nat.mod_eq_of_lt hlen
  have hk1 : (k.length % 4294967296 + 1) % 4294967296 = k.length + 1 := by
    rw [Nat.mod_eq_of_lt (by omega : k.length < 4294967296)]
    exact Nat.mod_eq_of_lt (by omega)
  have hsub : k.length + 1 + v.length - (k.length + 1) = v.length := by omega
  rw [hshape]
  simp only [parse_header_field, le_u32_le32, hL, takeUntilEq,
    splitAtEq_of_no_eq hk, takeN_one_cons, hk1, checked_sub_eq]
  rw [if_pos (by omega : k.length + 1 ≤ k.length + 1 + v.length)]
  simp only [hsub, takeN_exact]

/-- Inversion for `takeUntilEq`. -/
theorem takeUntilEq_ok {i r pre : List Nat} (h : takeUntilEq i = .ok (r, pre)) :
    splitAtEq i = some (pre, r) := by
  rw [takeUntilEq] at h
  split at h
  next p q heq =>
    simp only [Except.ok.injEq, Prod.mk.injEq] at h
    rw [heq, h.1, h.2]
  next heq => exact absurd h (by simp)

/-- A successful `parse_header_field` consumed a prefix of its input of at
least 5 bytes. -/
theorem phf_ok_shape {i r k v : List Nat}
    (h : parse_header_field i = .ok (r, (k, v))) :
    (∃ p, i = p ++ r) ∧ r.length + 5 ≤ i.length := by
  rw [parse_header_field] at h
  split at h
  next e h1 => exact absurd h (by simp)
  next i1 len h1 =>
  split at h
  next e h2 => exact absurd h (by simp)
  next i2 name h2 =>
  split at h
  next e h3 => exact absurd h (by simp)
  next i3 eqb h3 =>
  split at h
  next h4 => exact absurd h (by simp)
  next rem h4 =>
  split at h
  next e h5 => exact absurd h (by simp)
  next i4 value h5 =>
  obtain ⟨b0, b1, b2, b3, hi⟩ := le_u32_ok h1
  obtain ⟨hsplit, _hno, t, ht⟩ := splitAtEq_some (takeUntilEq_ok h2)
  obtain ⟨hle3, hi3, _⟩ := takeN_ok h3
  obtain ⟨hle5, hi4, _⟩ := takeN_ok h5
  have hri4 : r = i4 := by
    by_cases hn : utf8Valid name
    · by_cases hv : utf8Valid value
      · simp only [hn, hv, if_true, Except.ok.injEq, Prod.mk.injEq] at h
        exact h.1.symm
      · simp only [hn, hv, if_true, if_false] at h
        exact absurd h (by simp)
    · simp only [hn, if_false] at h
      exact absurd h (by simp)
  subst hri4
  have hi3t : i3 = t := by rw [hi3, ht, List.drop_one, List.tail_cons]
  constructor
  · refine ⟨b0 :: b1 :: b2 :: b3 :: (name ++ 61 :: t.take rem), ?_⟩
    rw [hi, hsplit, ht, hi4, hi3t]
    simp only [List.cons_append, List.cons.injEq, true_and, List.append_assoc]
    congr 1
    simp only [List.cons_append, List.cons.injEq, true_and]
    exact (List.take_append_drop rem t).symm
  · have hil : i.length = 4 + i1.length := by
      rw [hi]; simp only [List.length_cons]; omega
    have hpl : i1.length = name.length + i2.length := by
      rw [hsplit]; simp only [List.length_append]
    have hpostl : i2.length = 1 + t.length := by
      rw [ht]; simp only [List.length_cons]; omega
    have hi4l : r.length ≤ i3.length := by
      rw [hi4]; simp only [List.length_drop]; omega
    have hi3l : i3.length = t.length := by rw [hi3t]
    omega

theorem phf_nil : parse_header_field [] = .error ⟨[], .eof⟩ := rfl

theorem phf_encodeField_ok {k v : List Nat} (rest : List Nat) (hk : 61 ∉ k)
    (hku : utf8Valid k = true) (hvu : utf8Valid v = true)
    (hlen : k.length + 1 + v.length < 4294967296) :
    parse_header_field (encodeField k v ++ rest) = .ok (rest, (k, v)) := by
  rw [phf_encodeField rest hk hlen, hku, hvu]
  simp

theorem phf_encodeField_badname {k v : List Nat} (rest : List Nat) (hk : 61 ∉ k)
    (hku : utf8Valid k = false)
    (hlen : k.length + 1 + v.length < 4294967296) :
    parse_header_field (encodeField k v ++ rest) = .error ⟨rest, .alphaNumeric⟩ := by
  rw [phf_encodeField rest hk hlen, hku]
  simp

theorem phf_encodeField_badvalue {k v : List Nat} (rest : List Nat) (hk : 61 ∉ k)
    (hku : utf8Valid k = true) (hvu : utf8Valid v = false)
    (hlen : k.length + 1 + v.length < 4294967296) :
    parse_header_field (encodeField k v ++ rest) = .error ⟨rest, .alphaNumeric⟩ := by
  rw [phf_encodeField rest hk hlen, hku, hvu]
  simp

theorem parseFieldsF_len_zero (f : Nat) (i : List Nat) (hd : ConnectionHeader) :
    parseFieldsF f 0 i hd = .ok (i, hd) := by
  cases f <;> rfl

theorem parseFieldsF_zero_succ (m : Nat) (i : List Nat) (hd : ConnectionHeader) :
    parseFieldsF 0 (m + 1) i hd = .error ⟨i, .eof⟩ := by
  simp [parseFieldsF]

/-- One unfolding of the parse loop when the field subparser succeeds. -/
theorem parseFieldsF_step {g len : Nat} {i r k v : List Nat} {hd : ConnectionHeader}
    (hlen : len ≠ 0) (hphf : parse_header_field i = .ok (r, (k, v))) :
    parseFieldsF (g + 1) len i hd =
      match checked_sub len ((i.length - r.length) % 4294967296) with
      | none => .error ⟨i, .count⟩
      | some shorter => parseFieldsF g shorter r (applyField hd k v) := by
  simp only [parseFieldsF, if_neg hlen, hphf]

/-- One unfolding of the parse loop when the field subparser fails. -/
theorem parseFieldsF_step_err {g len : Nat} {i : List Nat} {hd : ConnectionHeader}
    {e : NomErr} (hlen : len ≠ 0) (hphf : parse_header_field i = .error e) :
    parseFieldsF (g + 1) len i hd = .error e := by
  simp only [parseFieldsF, if_neg hlen, hphf]

/-- The parse loop is insensitive to the fuel once the fuel covers the
input length: with that much fuel it computes exactly the source's
`while len > 0` loop. -/
theorem parseFieldsF_fuel_irrel (f : Nat) :
    ∀ f' len (i : List Nat) hd, i.length ≤ f → i.length ≤ f' →
      parseFieldsF f len i hd = parseFieldsF f' len i hd := by
  induction f with
  | zero =>
    intro f' len i hd hf hf'
    have hnil : i = [] := List.eq_nil_of_length_eq_zero (Nat.le_zero.mp hf)
    subst hnil
    cases len with
    | zero => rw [parseFieldsF_len_zero, parseFieldsF_len_zero]
    | succ m =>
      cases f' with
      | zero => rfl
      | succ g2 =>
        rw [parseFieldsF_zero_succ, parseFieldsF_step_err (Nat.succ_ne_zero m) phf_nil]
  | succ g ih =>
    intro f' len i hd hf hf'
    cases len with
    | zero => rw [parseFieldsF_len_zero, parseFieldsF_len_zero]
    | succ m =>
      cases f' with
      | zero =>
        have hnil : i = [] := List.eq_nil_of_length_eq_zero (Nat.le_zero.mp hf')
        subst hnil
        rw [parseFieldsF_zero_succ, parseFieldsF_step_err (Nat.succ_ne_zero m) phf_nil]
      | succ g2 =>
        cases hphf : parse_header_field i with
        | error e =>
          rw [parseFieldsF_step_err (Nat.succ_ne_zero m) hphf,
            parseFieldsF_step_err (Nat.succ_ne_zero m) hphf]
        | ok p =>
          obtain ⟨r1, k, v⟩ := p
          rw [parseFieldsF_step (Nat.succ_ne_zero m) hphf,
            parseFieldsF_step (Nat.succ_ne_zero m) hphf]
          obtain ⟨_, hl5⟩ := phf_ok_shape hphf
          cases hcs : checked_sub (m + 1) ((i.length - r1.length) % 4294967296) with
          | none => simp only [hcs]
          | some sh =>
            simp only [hcs]
            exact ih g2 sh r1 _ (by omega) (by omega)

/-- A successful parse loop run consumed a prefix of its input. -/
theorem parseFieldsF_suffix (f : Nat) :
    ∀ len (i : List Nat) hd r h, parseFieldsF f len i hd = .ok (r, h) →
      ∃ p, i = p ++ r := by
  induction f with
  | zero =>
    intro len i hd r h hok
    cases len with
    | zero =>
      rw [parseFieldsF_len_zero] at hok
      simp only [Except.ok.injEq, Prod.mk.injEq] at hok
      exact ⟨[], by rw [hok.1]; rfl⟩
    | succ m => rw [parseFieldsF_zero_succ] at hok; exact absurd hok (by simp)
  | succ g ih =>
    intro len i hd r h hok
    cases len with
    | zero =>
      rw [parseFieldsF_len_zero] at hok
      simp only [Except.ok.injEq, Prod.mk.injEq] at hok
      exact ⟨[], by rw [hok.1]; rfl⟩
    | succ m =>
      cases hphf : parse_header_field i with
      | error e =>
        rw [parseFieldsF_step_err (Nat.succ_ne_zero m) hphf] at hok
        exact absurd hok (by simp)
      | ok p =>
        obtain ⟨r1, k, v⟩ := p
        rw [parseFieldsF_step (Nat.succ_ne_zero m) hphf] at hok
        cases hcs : checked_sub (m + 1) ((i.length - r1.length) % 4294967296) with
        | none => simp only [hcs] at hok; exact absurd hok (by simp)
        | some sh =>
          simp only [hcs] at hok
          obtain ⟨p1, hp1⟩ := (phf_ok_shape hphf).1
          obtain ⟨p2, hp2⟩ := ih sh r1 _ r h hok
          exact ⟨p1 ++ p2, by rw [hp1, hp2, List.append_assoc]⟩

theorem le_u32_append {i r : List Nat} {n : Nat} (s : List Nat)
    (h : le_u32 i = .ok (r, n)) : le_u32 (i ++ s) = .ok (r ++ s, n) := by
  obtain ⟨b0, b1, b2, b3, hi⟩ := le_u32_ok h
  subst hi
  have hn : b0 + 256 * b1 + 65536 * b2 + 16777216 * b3 = n := by
    simpa [le_u32] using h
  simp [le_u32, List.cons_append, hn]

/-- Appending bytes after a successfully parsed field does not change the
parsed field: every combinator inspects only the prefix it consumed. -/
theorem phf_append {i r k v : List Nat} (s : List Nat)
    (h : parse_header_field i = .ok (r, (k, v))) :
    parse_header_field (i ++ s) = .ok (r ++ s, (k, v)) := by
  rw [parse_header_field] at h
  split at h
  next e h1 => exact absurd h (by simp)
  next i1 len h1 =>
  split at h
  next e h2 => exact absurd h (by simp)
  next i2 name h2 =>
  split at h
  next e h3 => exact absurd h (by simp)
  next i3 eqb h3 =>
  split at h
  next h4 => exact absurd h (by simp)
  next rem h4 =>
  split at h
  next e h5 => exact absurd h (by simp)
  next i4 value h5 =>
  have h2a : takeUntilEq (i1 ++ s) = .ok (i2 ++ s, name) := by
    rw [takeUntilEq, splitAtEq_append s (takeUntilEq_ok h2)]
  simp only [parse_header_field, le_u32_append s h1, h2a, takeN_append s h3, h4,
    takeN_append s h5]
  by_cases hn : utf8Valid name
  · by_cases hv : utf8Valid value
    · simp only [hn, hv, if_true, Except.ok.injEq, Prod.mk.injEq] at h ⊢
      exact ⟨by rw [h.1], h.2.1, h.2.2⟩
    · simp only [hn, hv, if_true, if_false] at h
      exact absurd h (by simp)
  · simp only [hn, if_false] at h
    exact absurd h (by simp)

/-- Appending bytes after the advertised field block does not change a
successful parse-loop run: the loop consumes the same prefix and returns
the same header, with the appended bytes left over. -/
theorem parseFieldsF_append (f : Nat) :
    ∀ f' len (i s : List Nat) hd r h, parseFieldsF f len i hd = .ok (r, h) →
      i.length ≤ f → i.length + s.length ≤ f' →
      parseFieldsF f' len (i ++ s) hd = .ok (r ++ s, h) := by
  induction f with
  | zero =>
    intro f' len i s hd r h hok hf hf'
    have hnil : i = [] := List.eq_nil_of_length_eq_zero (Nat.le_zero.mp hf)
    subst hnil
    cases len with
    | zero =>
      rw [parseFieldsF_len_zero] at hok
      simp only [Except.ok.injEq, Prod.mk.injEq] at hok
      obtain ⟨h1, h2⟩ := hok
      subst h1
      subst h2
      rw [parseFieldsF_len_zero]
    | succ m =>
      rw [parseFieldsF_zero_succ] at hok
      exact absurd hok (by simp)
  | succ g ih =>
    intro f' len i s hd r h hok hf hf'
    cases len with
    | zero =>
      rw [parseFieldsF_len_zero] at hok
      simp only [Except.ok.injEq, Prod.mk.injEq] at hok
      rw [parseFieldsF_len_zero, hok.1, hok.2]
    | succ m =>
      cases hphf : parse_header_field i with
      | error e =>
        rw [parseFieldsF_step_err (Nat.succ_ne_zero m) hphf] at hok
        exact absurd hok (by simp)
      | ok p =>
        obtain ⟨r1, k, v⟩ := p
        rw [parseFieldsF_step (Nat.succ_ne_zero m) hphf] at hok
        obtain ⟨_, hl5⟩ := phf_ok_shape hphf
        obtain ⟨g2, rfl⟩ : ∃ g2, f' = g2 + 1 := ⟨f' - 1, by omega⟩
        rw [parseFieldsF_step (Nat.succ_ne_zero m) (phf_append s hphf)]
        have hdiff : (i ++ s).length - (r1 ++ s).length = i.length - r1.length := by
          simp only [List.length_append]; omega
        rw [hdiff]
        cases hcs : checked_sub (m + 1) ((i.length - r1.length) % 4294967296) with
        | none => simp only [hcs] at hok; exact absurd hok (by simp)
        | some sh =>
          simp only [hcs] at hok ⊢
          exact ih g2 sh r1 s _ r h hok (by omega) (by omega)

/-- Parsing the concatenation of well-framed, UTF-8-valid encoded fields
consumes exactly the block and folds the dispatch over the fields in
order. -/
theorem parseFieldsF_encode (fs : List (List Nat × List Nat)) :
    ∀ (rest : List Nat) (h0 : ConnectionHeader) (fuel : Nat),
      (∀ k v, (k, v) ∈ fs → 61 ∉ k ∧ utf8Valid k = true ∧ utf8Valid v = true ∧
        k.length + 1 + v.length < 4294967292) →
      (encodeFieldsList fs).length + rest.length ≤ fuel →
      parseFieldsF fuel (encodeFieldsList fs).length (encodeFieldsList fs ++ rest) h0 =
        .ok (rest, fs.foldl (fun h kv => applyField h kv.1 kv.2) h0) := by
  induction fs with
  | nil =>
    intro rest h0 fuel hg hf
    simp only [encodeFieldsList, List.length_nil, List.nil_append, List.foldl_nil]
    exact parseFieldsF_len_zero fuel rest h0
  | cons kv fs ih =>
    obtain ⟨k, v⟩ := kv
    intro rest h0 fuel hg hf
    obtain ⟨hk61, hku, hvu, hkl2⟩ := hg k v (List.mem_cons_self _ _)
    have hEFlen : (encodeField k v).length = 4 + k.length + (1 + v.length) :=
      encodeField_length k v
    simp only [encodeFieldsList, List.length_append, hEFlen] at hf ⊢
    have hphf : parse_header_field (encodeField k v ++ (encodeFieldsList fs ++ rest)) =
        .ok (encodeFieldsList fs ++ rest, (k, v)) :=
      phf_encodeField_ok _ hk61 hku hvu (by omega)
    obtain ⟨g, rfl⟩ : ∃ g, fuel = g + 1 := ⟨fuel - 1, by omega⟩
    rw [List.append_assoc, parseFieldsF_step (by omega) hphf]
    have hdiff : (encodeField k v ++ (encodeFieldsList fs ++ rest)).length -
        (encodeFieldsList fs ++ rest).length = 4 + k.length + (1 + v.length) := by
      simp only [List.length_append, hEFlen]; omega
    have hmod : (4 + k.length + (1 + v.length)) % 4294967296 =
        4 + k.length + (1 + v.length) := Nat.mod_eq_of_lt (by omega)
    have hcs : checked_sub (4 + k.length + (1 + v.length) + (encodeFieldsList fs).length)
        (4 + k.length + (1 + v.length)) = some (encodeFieldsList fs).length := by
      rw [checked_sub_eq, if_pos (by omega)]
      congr 1
      omega
    rw [hdiff, hmod]
    simp only [hcs, List.foldl_cons]
    exact ih rest (applyField h0 k v) g
      (fun k2 v2 hm => hg k2 v2 (List.mem_cons_of_mem _ hm)) (by omega)

theorem applyField_callerid (h : ConnectionHeader) (v : List Nat) :
    applyField h keyCallerid v = { h with caller_id := v } := rfl

theorem applyField_msgdef (h : ConnectionHeader) (v : List Nat) :
    applyField h keyMessageDefinition v = { h with msg_definition := v } := rfl

theorem applyField_md5sum (h : ConnectionHeader) (v : List Nat) :
    applyField h keyMd5sum v = { h with md5sum := v } := rfl

theorem applyField_topic (h : ConnectionHeader) (v : List Nat) :
    applyField h keyTopic v = { h with topic := v } := rfl

theorem applyField_type (h : ConnectionHeader) (v : List Nat) :
    applyField h keyType v = { h with topic_type := v } := rfl

theorem applyField_latching (h : ConnectionHeader) (v : List Nat) :
    applyField h keyLatching v = { h with latching := v != [48] } := rfl

theorem applyField_tcp_nodelay (h : ConnectionHeader) (v : List Nat) :
    applyField h keyTcpNodelay v = { h with tcp_nodelay := v != [48] } := rfl

theorem boolBytes_length (b : Bool) : (boolBytes b).length = 1 := by
  cases b <;> rfl

theorem boolBytes_utf8 (b : Bool) : utf8Valid (boolBytes b) = true := by
  cases b <;> rfl

theorem boolBytes_bne (b : Bool) : (boolBytes b != [48]) = b := by
  cases b <;> rfl

theorem drop4_le32 (n : Nat) (t : List Nat) : (le32 n ++ t).drop 4 = t := by
  simp [le32]

theorem len4_le32 (n : Nat) (t : List Nat) : (le32 n ++ t).length - 4 = t.length := by
  simp [le32]

/-- The encoder output is the outer length (low 32 bits of the field-block
length) followed by the concatenation of the encoded field pairs. -/
theorem to_bytes_eq (h : ConnectionHeader) (tp : Bool) :
    h.to_bytes tp =
      le32 ((encodeFieldsList (fieldPairs h tp)).length % 4294967296)
        ++ encodeFieldsList (fieldPairs h tp) := by
  have hdata : (le32 0
      ++ encodeField keyCallerid h.caller_id
      ++ encodeField keyLatching (boolBytes h.latching)
      ++ encodeField keyMd5sum h.md5sum
      ++ encodeField keyMessageDefinition h.msg_definition
      ++ (if tp then encodeField keyTcpNodelay (boolBytes h.tcp_nodelay) else [])
      ++ encodeField keyTopic h.topic
      ++ encodeField keyType h.topic_type)
      = le32 0 ++ encodeFieldsList (fieldPairs h tp) := by
    cases tp <;> simp [fieldPairs, encodeFieldsList, List.append_assoc]
  simp only [ConnectionHeader.to_bytes]
  rw [hdata, drop4_le32, len4_le32]

/-- C1: for every header and direction flag, decoding the encoding succeeds
and returns the header unchanged, except that `tcp_nodelay` decodes as
false when the header was not addressed to a publisher (the field is not
emitted in that direction).  The hypotheses render the Rust `String` type
invariant (fields are valid UTF-8) and the `u32` wire framing (total text
below 2^32 bytes). -/
theorem tcpros_round_trip (h : ConnectionHeader) (tp : Bool)
    (hu1 : utf8Valid h.caller_id = true) (hu2 : utf8Valid h.msg_definition = true)
    (hu3 : utf8Valid h.md5sum = true) (hu4 : utf8Valid h.topic = true)
    (hu5 : utf8Valid h.topic_type = true)
    (hlen : h.caller_id.length + h.msg_definition.length + h.md5sum.length
      + h.topic.length + h.topic_type.length < 4294967100) :
    from_bytes (h.to_bytes tp) =
      .ok (if tp then h else { h with tcp_nodelay := false }) := by
  cases tp with
  | false =>
    rw [to_bytes_eq]
    have hgood : ∀ k v, (k, v) ∈ fieldPairs h false → 61 ∉ k ∧ utf8Valid k = true ∧
        utf8Valid v = true ∧ k.length + 1 + v.length < 4294967292 := by
      intro k v hkv
      simp only [fieldPairs, Bool.false_eq_true, if_false, List.nil_append,
        List.cons_append, List.append_nil, List.mem_cons, List.not_mem_nil,
        or_false, Prod.mk.injEq] at hkv
      rcases hkv with ⟨rfl, rfl⟩ | ⟨rfl, rfl⟩ | ⟨rfl, rfl⟩ | ⟨rfl, rfl⟩ | ⟨rfl, rfl⟩ | ⟨rfl, rfl⟩
      · exact ⟨by decide, by decide, hu1, by simp [keyCallerid]; omega⟩
      · exact ⟨by decide, by decide, boolBytes_utf8 _,
          by simp [keyLatching, boolBytes_length]⟩
      · exact ⟨by decide, by decide, hu3, by simp [keyMd5sum]; omega⟩
      · exact ⟨by decide, by decide, hu2, by simp [keyMessageDefinition]; omega⟩
      · exact ⟨by decide, by decide, hu4, by simp [keyTopic]; omega⟩
      · exact ⟨by decide, by decide, hu5, by simp [keyType]; omega⟩
    have hXlen : (encodeFieldsList (fieldPairs h false)).length < 4294967296 := by
      simp [fieldPairs, encodeFieldsList, encodeField_length, boolBytes_length,
        keyCallerid, keyLatching, keyMd5sum, keyMessageDefinition, keyTopic, keyType]
      omega
    have henc := parseFieldsF_encode (fieldPairs h false) [] ConnectionHeader.default
      (encodeFieldsList (fieldPairs h false)).length hgood (by simp)
    rw [List.append_nil] at henc
    have hmod : (encodeFieldsList (fieldPairs h false)).length % 4294967296 % 4294967296
        = (encodeFieldsList (fieldPairs h false)).length := by omega
    simp only [from_bytes, parse, le_u32_le32, hmod, henc]
    simp only [fieldPairs, Bool.false_eq_true, if_false, List.nil_append,
      List.cons_append, List.append_nil, List.foldl_cons, List.foldl_nil,
      applyField_callerid, applyField_latching, applyField_md5sum, applyField_msgdef,
      applyField_topic, applyField_type, boolBytes_bne, ConnectionHeader.default]
  | true =>
    rw [to_bytes_eq]
    have hgood : ∀ k v, (k, v) ∈ fieldPairs h true → 61 ∉ k ∧ utf8Valid k = true ∧
        utf8Valid v = true ∧ k.length + 1 + v.length < 4294967292 := by
      intro k v hkv
      simp only [fieldPairs, if_true, List.nil_append, List.cons_append,
        List.append_nil, List.mem_cons, List.not_mem_nil, or_false,
        Prod.mk.injEq] at hkv
      rcases hkv with ⟨rfl, rfl⟩ | ⟨rfl, rfl⟩ | ⟨rfl, rfl⟩ | ⟨rfl, rfl⟩ | ⟨rfl, rfl⟩ | ⟨rfl, rfl⟩ | ⟨rfl, rfl⟩
      · exact ⟨by decide, by decide, hu1, by simp [keyCallerid]; omega⟩
      · exact ⟨by decide, by decide, boolBytes_utf8 _,
          by simp [keyLatching, boolBytes_length]⟩
      · exact ⟨by decide, by decide, hu3, by simp [keyMd5sum]; omega⟩
      · exact ⟨by decide, by decide, hu2, by simp [keyMessageDefinition]; omega⟩
      · exact ⟨by decide, by decide, boolBytes_utf8 _,
          by simp [keyTcpNodelay, boolBytes_length]⟩
      · exact ⟨by decide, by decide, hu4, by simp [keyTopic]; omega⟩
      · exact ⟨by decide, by decide, hu5, by simp [keyType]; omega⟩
    have hXlen : (encodeFieldsList (fieldPairs h true)).length < 4294967296 := by
      simp [fieldPairs, encodeFieldsList, encodeField_length, boolBytes_length,
        keyCallerid, keyLatching, keyMd5sum, keyMessageDefinition, keyTcpNodelay,
        keyTopic, keyType]
      omega
    have henc := parseFieldsF_encode (fieldPairs h true) [] ConnectionHeader.default
      (encodeFieldsList (fieldPairs h true)).length hgood (by simp)
    rw [List.append_nil] at henc
    have hmod : (encodeFieldsList (fieldPairs h true)).length % 4294967296 % 4294967296
        = (encodeFieldsList (fieldPairs h true)).length := by omega
    simp only [from_bytes, parse, le_u32_le32, hmod, henc]
    simp only [fieldPairs, if_true, List.nil_append, List.cons_append,
      List.append_nil, List.foldl_cons, List.foldl_nil,
      applyField_callerid, applyField_latching, applyField_md5sum, applyField_msgdef,
      applyField_tcp_nodelay, applyField_topic, applyField_type, boolBytes_bne,
      ConnectionHeader.default]

/-- Witness for C1 at a concrete header and `to_publisher = false`. -/
theorem tcpros_round_trip_witness :
    from_bytes (ConnectionHeader.to_bytes
        { caller_id := [47, 97], latching := true, msg_definition := [100],
          md5sum := [53], topic := [47, 116], topic_type := [84], tcp_nodelay := true }
        false) =
      .ok (if false then
          { caller_id := [47, 97], latching := true, msg_definition := [100],
            md5sum := [53], topic := [47, 116], topic_type := [84], tcp_nodelay := true }
        else
          { caller_id := [47, 97], latching := true, msg_definition := [100],
            md5sum := [53], topic := [47, 116], topic_type := [84],
            tcp_nodelay := false }) :=
  tcpros_round_trip _ false (by decide) (by decide) (by decide) (by decide)
    (by decide) (by decide)

theorem take4_le32 (n : Nat) (t : List Nat) : (le32 n ++ t).take 4 = le32 n := by
  simp [le32]

/-- C2: decoding any byte sequence terminates with either a parsed header
or an error value (the model is a total function, mirroring that the
source never panics), and a successful parse leaves a suffix of the input
unconsumed: every byte the parser inspected lies inside the supplied
buffer, even when declared lengths exceed the bytes present (the `takeN`
model fails with Eof instead of reading past the end). -/
theorem from_bytes_total (b : List Nat) :
    ((∃ h, from_bytes b = .ok h) ∨ (∃ e, from_bytes b = .error e)) ∧
      (∀ rest h, parse b = .ok (rest, h) → ∃ consumed, b = consumed ++ rest) := by
  constructor
  · cases hfb : from_bytes b with
    | ok h => exact Or.inl ⟨h, rfl⟩
    | error e => exact Or.inr ⟨e, rfl⟩
  · intro rest h hp
    rw [parse] at hp
    split at hp
    next e h1 => exact absurd hp (by simp)
    next i1 len h1 =>
      obtain ⟨b0, b1, b2, b3, hi⟩ := le_u32_ok h1
      obtain ⟨p, hp2⟩ := parseFieldsF_suffix i1.length len i1 _ rest h hp
      exact ⟨b0 :: b1 :: b2 :: b3 :: p, by rw [hi, hp2]; rfl⟩

/-- C3: encoding is a total function (every Rust write targets an
in-memory `Vec`, so `to_bytes` always returns `Ok` of this byte list),
and the bytes are exactly the layout stated by the spec: a 4-byte
little-endian outer length holding total bytes written minus 4, then the
fields callerid, latching, md5sum, message_definition, then tcp_nodelay
only when addressed to a publisher, then topic, then type, each one a
4-byte little-endian length followed by the name=value text, booleans
rendered "1"/"0". -/
theorem to_bytes_spec (h : ConnectionHeader) (tp : Bool) :
    h.to_bytes tp = specEncode h tp ∧
      (h.to_bytes tp).take 4 = le32 ((h.to_bytes tp).length - 4) := by
  have hfe : ∀ k v : List Nat, encodeField k v = specField k v := by
    intro k v
    rw [encodeField, specField, le32_mod]
  have hXY : encodeFieldsList (fieldPairs h tp) =
      (specField keyCallerid h.caller_id ++ specField keyLatching (boolBytes h.latching)
        ++ specField keyMd5sum h.md5sum ++ specField keyMessageDefinition h.msg_definition
        ++ (if tp then specField keyTcpNodelay (boolBytes h.tcp_nodelay) else [])
        ++ specField keyTopic h.topic ++ specField keyType h.topic_type) := by
    cases tp <;> simp [fieldPairs, encodeFieldsList, hfe, List.append_assoc]
  constructor
  · rw [to_bytes_eq, hXY, le32_mod]
    simp only [specEncode, hXY]
  · rw [to_bytes_eq, take4_le32, len4_le32]
    exact le32_mod _

/-- C10: bytes after the advertised field block do not affect decoding:
whatever `from_bytes` accepts, it still accepts with any bytes appended,
producing the same header (every combinator inspects only the prefix the
framing lengths select). -/
theorem from_bytes_ignores_trailing (b s : List Nat) (h : ConnectionHeader)
    (hok : from_bytes b = .ok h) : from_bytes (b ++ s) = .ok h := by
  rw [from_bytes] at hok
  split at hok
  next x hh heq =>
    simp only [Except.ok.injEq] at hok
    subst hok
    rw [parse] at heq
    split at heq
    next e h1 => exact absurd heq (by simp)
    next i1 len h1 =>
      have happ := parseFieldsF_append i1.length ((i1 ++ s).length) len i1 s
        ConnectionHeader.default x hh heq (Nat.le_refl _) (by simp)
      simp only [from_bytes, parse, le_u32_append s h1, happ]
  next e heq => exact absurd hok (by simp)

/-- Witness for C10: a one-field header still decodes to the same record
with a junk byte appended. -/
theorem from_bytes_ignores_trailing_witness :
    from_bytes (latchingWire [49] ++ [99]) =
      .ok { ConnectionHeader.default with latching := true } :=
  from_bytes_ignores_trailing (latchingWire [49]) [99]
    { ConnectionHeader.default with latching := true } (by rfl)

set_option maxRecDepth 80000

/-- C6: the 180-byte wire header from the source's own test vector decodes
to the expected record: latching true, tcp_nodelay false (absent on the
wire), and the text fields verbatim. -/
theorem concrete_header_decodes :
    from_bytes validHeaderExample = .ok validHeaderModel := by
  rfl

/-- C7: the boolean fields latching and tcp_nodelay decode to true exactly
when the value text differs from "0" (byte 48): any other value,
including garbage, decodes as true.  Stated on the dispatch step and,
end-to-end, on a wire header holding one latching field. -/
theorem bool_fields_lenient (h : ConnectionHeader) (v : List Nat) :
    ((applyField h keyLatching v).latching = (v != [48])) ∧
      ((applyField h keyTcpNodelay v).tcp_nodelay = (v != [48])) ∧
      ((v != [48]) = true ↔ v ≠ [48]) ∧
      (utf8Valid v = true → v.length < 4294967000 →
        from_bytes (latchingWire v) =
          .ok { ConnectionHeader.default with latching := v != [48] }) := by
  refine ⟨by rw [applyField_latching], by rw [applyField_tcp_nodelay],
    bne_iff_ne, ?_⟩
  intro hv hlen
  have hgood : ∀ k2 v2, (k2, v2) ∈ [(keyLatching, v)] → 61 ∉ k2 ∧
      utf8Valid k2 = true ∧ utf8Valid v2 = true ∧
      k2.length + 1 + v2.length < 4294967292 := by
    intro k2 v2 hm
    simp only [List.mem_singleton, Prod.mk.injEq] at hm
    obtain ⟨rfl, rfl⟩ := hm
    exact ⟨by decide, by decide, hv, by simp [keyLatching]; omega⟩
  have henc := parseFieldsF_encode [(keyLatching, v)] [] ConnectionHeader.default
    (encodeFieldsList [(keyLatching, v)]).length hgood (by simp)
  rw [List.append_nil] at henc
  have hlist : encodeFieldsList [(keyLatching, v)] = encodeField keyLatching v := by
    simp [encodeFieldsList]
  rw [hlist] at henc
  have hEl : (encodeField keyLatching v).length = 13 + v.length := by
    rw [encodeField_length]; simp [keyLatching]; omega
  have hmod : (13 + v.length) % 4294967296 = 13 + v.length :=
    Nat.mod_eq_of_lt (by omega)
  rw [hEl] at henc
  simp only [latchingWire, from_bytes, parse, le_u32_le32, hmod, hEl, henc,
    List.foldl_cons, List.foldl_nil, applyField_latching]

/-- C4: framing-length underflows fail the whole decode call with a
FormatError rather than a crash or out-of-range read: a field whose
declared length leaves no room for the value after the name and the `=`
separator yields a LengthValue error, and a field that consumes more
bytes than the outer remaining length counter yields a Count error. -/
theorem framing_underflow_fails :
    (∀ (L0 L : Nat) (name rest : List Nat), 0 < L0 → L0 < 4294967296 →
      L < 4294967296 → name.length + 1 < 4294967296 → 61 ∉ name →
      L < name.length + 1 →
      from_bytes (le32 L0 ++ (le32 L ++ (name ++ 61 :: rest))) =
        .error ⟨rest, .lengthValue⟩) ∧
    (∀ (L0 : Nat) (k v rest : List Nat), 0 < L0 → L0 < 4294967296 → 61 ∉ k →
      utf8Valid k = true → utf8Valid v = true →
      k.length + 1 + v.length < 4294967292 → L0 < 4 + (k.length + 1 + v.length) →
      from_bytes (le32 L0 ++ (encodeField k v ++ rest)) =
        .error ⟨encodeField k v ++ rest, .count⟩) := by
  constructor
  · intro L0 L name rest h0 hb0 hbL hbn hname hlt
    have hm0 : L0 % 4294967296 = L0 := Nat.mod_eq_of_lt hb0
    have hmL : L % 4294967296 = L := Nat.mod_eq_of_lt hbL
    have hmn : (name.length % 4294967296 + 1) % 4294967296 = name.length + 1 := by
      rw [Nat.mod_eq_of_lt (by omega : name.length < 4294967296)]
      exact Nat.mod_eq_of_lt hbn
    have hphf : parse_header_field (le32 L ++ (name ++ 61 :: rest)) =
        .error ⟨rest, .lengthValue⟩ := by
      simp only [parse_header_field, le_u32_le32, hmL, takeUntilEq,
        splitAtEq_of_no_eq hname, takeN_one_cons, hmn, checked_sub_eq,
        if_neg (by omega : ¬(name.length + 1 ≤ L))]
    obtain ⟨g, hgf⟩ : ∃ g, (le32 L ++ (name ++ 61 :: rest)).length = g + 1 :=
      ⟨name.length + rest.length + 4, by simp [le32]; omega⟩
    simp only [from_bytes, parse, le_u32_le32, hm0, hgf,
      parseFieldsF_step_err (by omega : L0 ≠ 0) hphf]
  · intro L0 k v rest h0 hb0 hk61 hku hvu hkl hlt
    have hm0 : L0 % 4294967296 = L0 := Nat.mod_eq_of_lt hb0
    have hphf := phf_encodeField_ok rest hk61 hku hvu (by omega)
    have hdiff : (encodeField k v ++ rest).length - rest.length =
        4 + (k.length + 1 + v.length) := by
      rw [List.length_append, encodeField_length]; omega
    have hmd : (4 + (k.length + 1 + v.length)) % 4294967296 =
        4 + (k.length + 1 + v.length) := Nat.mod_eq_of_lt (by omega)
    have hcs : checked_sub L0 (4 + (k.length + 1 + v.length)) = none := by
      rw [checked_sub_eq, if_neg (by omega)]
    obtain ⟨g, hgf⟩ : ∃ g, (encodeField k v ++ rest).length = g + 1 :=
      ⟨(encodeField k v ++ rest).length - 1,
        by rw [List.length_append, encodeField_length]; omega⟩
    simp only [from_bytes, parse, le_u32_le32, hm0, hgf]
    rw [parseFieldsF_step (by omega : L0 ≠ 0) hphf, hdiff, hmd]
    simp only [hcs]

/-- Witness for C4 at concrete inputs: a field length 0 with name "a"
(no room for the value) errors, and a field of 6 consumed bytes inside an
outer block of 5 remaining bytes errors. -/
theorem framing_underflow_fails_witness :
    from_bytes (le32 5 ++ (le32 0 ++ ([97] ++ 61 :: []))) =
        .error ⟨[], .lengthValue⟩ ∧
      from_bytes (le32 5 ++ (encodeField [97] [] ++ [])) =
        .error ⟨encodeField [97] [] ++ [], .count⟩ :=
  ⟨framing_underflow_fails.1 5 0 [97] [] (by decide) (by decide) (by decide)
      (by decide) (by decide) (by decide),
    framing_underflow_fails.2 5 [97] [] [] (by decide) (by decide) (by decide)
      (by decide) (by decide) (by decide) (by decide)⟩

/-- C5: invalid UTF-8 in a field's name, or in a field's value, fails the
whole decode call with a FormatError (AlphaNumeric); no partial header is
returned (the result is an error, not a record). -/
theorem invalid_utf8_fails :
    (∀ (L0 : Nat) (k v rest : List Nat), 0 < L0 → L0 < 4294967296 → 61 ∉ k →
      utf8Valid k = false → k.length + 1 + v.length < 4294967296 →
      from_bytes (le32 L0 ++ (encodeField k v ++ rest)) =
        .error ⟨rest, .alphaNumeric⟩) ∧
    (∀ (L0 : Nat) (k v rest : List Nat), 0 < L0 → L0 < 4294967296 → 61 ∉ k →
      utf8Valid k = true → utf8Valid v = false →
      k.length + 1 + v.length < 4294967296 →
      from_bytes (le32 L0 ++ (encodeField k v ++ rest)) =
        .error ⟨rest, .alphaNumeric⟩) := by
  constructor
  · intro L0 k v rest h0 hb0 hk61 hku hkl
    have hm0 : L0 % 4294967296 = L0 := Nat.mod_eq_of_lt hb0
    have hphf := phf_encodeField_badname rest hk61 hku hkl
    obtain ⟨g, hgf⟩ : ∃ g, (encodeField k v ++ rest).length = g + 1 :=
      ⟨(encodeField k v ++ rest).length - 1,
        by rw [List.length_append, encodeField_length]; omega⟩
    simp only [from_bytes, parse, le_u32_le32, hm0, hgf,
      parseFieldsF_step_err (by omega : L0 ≠ 0) hphf]
  · intro L0 k v rest h0 hb0 hk61 hku hvu hkl
    have hm0 : L0 % 4294967296 = L0 := Nat.mod_eq_of_lt hb0
    have hphf := phf_encodeField_badvalue rest hk61 hku hvu hkl
    obtain ⟨g, hgf⟩ : ∃ g, (encodeField k v ++ rest).length = g + 1 :=
      ⟨(encodeField k v ++ rest).length - 1,
        by rw [List.length_append, encodeField_length]; omega⟩
    simp only [from_bytes, parse, le_u32_le32, hm0, hgf,
      parseFieldsF_step_err (by omega : L0 ≠ 0) hphf]

/-- Witness for C5 at concrete inputs: name byte 0xFF, and value byte 0x80
(a lone continuation byte), each fail the decode. -/
theorem invalid_utf8_fails_witness :
    from_bytes (le32 5 ++ (encodeField [255] [] ++ [])) =
        .error ⟨[], .alphaNumeric⟩ ∧
      from_bytes (le32 5 ++ (encodeField [97] [128] ++ [])) =
        .error ⟨[], .alphaNumeric⟩ :=
  ⟨invalid_utf8_fails.1 5 [255] [] [] (by decide) (by decide) (by decide)
      (by decide) (by decide),
    invalid_utf8_fails.2 5 [97] [128] [] (by decide) (by decide) (by decide)
      (by decide) (by decide) (by decide)⟩

theorem applyField_frame_callerid {k : List Nat} (h : ConnectionHeader) (v : List Nat)
    (hk : k ≠ keyCallerid) : (applyField h k v).caller_id = h.caller_id := by
  unfold applyField
  split_ifs <;> simp_all

theorem applyField_frame_msgdef {k : List Nat} (h : ConnectionHeader) (v : List Nat)
    (hk : k ≠ keyMessageDefinition) : (applyField h k v).msg_definition = h.msg_definition := by
  unfold applyField
  split_ifs <;> simp_all

theorem applyField_frame_md5sum {k : List Nat} (h : ConnectionHeader) (v : List Nat)
    (hk : k ≠ keyMd5sum) : (applyField h k v).md5sum = h.md5sum := by
  unfold applyField
  split_ifs <;> simp_all

theorem applyField_frame_topic {k : List Nat} (h : ConnectionHeader) (v : List Nat)
    (hk : k ≠ keyTopic) : (applyField h k v).topic = h.topic := by
  unfold applyField
  split_ifs <;> simp_all

theorem applyField_frame_type {k : List Nat} (h : ConnectionHeader) (v : List Nat)
    (hk : k ≠ keyType) : (applyField h k v).topic_type = h.topic_type := by
  unfold applyField
  split_ifs <;> simp_all

theorem applyField_frame_latching {k : List Nat} (h : ConnectionHeader) (v : List Nat)
    (hk : k ≠ keyLatching) : (applyField h k v).latching = h.latching := by
  unfold applyField
  split_ifs <;> simp_all

theorem applyField_frame_tcp {k : List Nat} (h : ConnectionHeader) (v : List Nat)
    (hk : k ≠ keyTcpNodelay) : (applyField h k v).tcp_nodelay = h.tcp_nodelay := by
  unfold applyField
  split_ifs <;> simp_all

theorem parseKeysF_len_zero (f : Nat) (i : List Nat) :
    parseKeysF f 0 i = .ok (i, []) := by
  cases f <;> rfl

theorem parseKeysF_step {g len : Nat} {i r k v : List Nat}
    (hlen : len ≠ 0) (hphf : parse_header_field i = .ok (r, (k, v))) :
    parseKeysF (g + 1) len i =
      match checked_sub len ((i.length - r.length) % 4294967296) with
      | none => .error ⟨i, .count⟩
      | some shorter =>
        match parseKeysF g shorter r with
        | .error e => .error e
        | .ok (rest, keys) => .ok (rest, k :: keys) := by
  simp only [parseKeysF, if_neg hlen, hphf]

/-- A successful parse-loop run has a field-name trace, and every
recognized field whose name is absent from the trace keeps the value it
had in the starting record. -/
theorem parseFieldsF_keys (f : Nat) :
    ∀ len (i : List Nat) hd r h, parseFieldsF f len i hd = .ok (r, h) →
      ∃ ks, parseKeysF f len i = .ok (r, ks) ∧
        (keyCallerid ∉ ks → h.caller_id = hd.caller_id) ∧
        (keyMessageDefinition ∉ ks → h.msg_definition = hd.msg_definition) ∧
        (keyMd5sum ∉ ks → h.md5sum = hd.md5sum) ∧
        (keyTopic ∉ ks → h.topic = hd.topic) ∧
        (keyType ∉ ks → h.topic_type = hd.topic_type) ∧
        (keyLatching ∉ ks → h.latching = hd.latching) ∧
        (keyTcpNodelay ∉ ks → h.tcp_nodelay = hd.tcp_nodelay) := by
  induction f with
  | zero =>
    intro len i hd r h hok
    cases len with
    | zero =>
      rw [parseFieldsF_len_zero] at hok
      simp only [Except.ok.injEq, Prod.mk.injEq] at hok
      obtain ⟨h1, h2⟩ := hok
      subst h1
      subst h2
      exact ⟨[], parseKeysF_len_zero 0 i, fun _ => rfl, fun _ => rfl, fun _ => rfl,
        fun _ => rfl, fun _ => rfl, fun _ => rfl, fun _ => rfl⟩
    | succ m =>
      rw [parseFieldsF_zero_succ] at hok
      exact absurd hok (by simp)
  | succ g ih =>
    intro len i hd r h hok
    cases len with
    | zero =>
      rw [parseFieldsF_len_zero] at hok
      simp only [Except.ok.injEq, Prod.mk.injEq] at hok
      obtain ⟨h1, h2⟩ := hok
      subst h1
      subst h2
      exact ⟨[], parseKeysF_len_zero (g + 1) i, fun _ => rfl, fun _ => rfl, fun _ => rfl,
        fun _ => rfl, fun _ => rfl, fun _ => rfl, fun _ => rfl⟩
    | succ m =>
      cases hphf : parse_header_field i with
      | error e =>
        rw [parseFieldsF_step_err (Nat.succ_ne_zero m) hphf] at hok
        exact absurd hok (by simp)
      | ok p =>
        obtain ⟨r1, k, v⟩ := p
        rw [parseFieldsF_step (Nat.succ_ne_zero m) hphf] at hok
        cases hcs : checked_sub (m + 1) ((i.length - r1.length) % 4294967296) with
        | none => simp only [hcs] at hok; exact absurd hok (by simp)
        | some sh =>
          simp only [hcs] at hok
          obtain ⟨ks, hkeys, f1, f2, f3, f4, f5, f6, f7⟩ :=
            ih sh r1 (applyField hd k v) r h hok
          refine ⟨k :: ks, ?_, ?_, ?_, ?_, ?_, ?_, ?_, ?_⟩
          · rw [parseKeysF_step (Nat.succ_ne_zero m) hphf]
            simp only [hcs, hkeys]
          · intro hmem
            rw [List.mem_cons, not_or] at hmem
            rw [f1 hmem.2, applyField_frame_callerid hd v (fun he => hmem.1 he.symm)]
          · intro hmem
            rw [List.mem_cons, not_or] at hmem
            rw [f2 hmem.2, applyField_frame_msgdef hd v (fun he => hmem.1 he.symm)]
          · intro hmem
            rw [List.mem_cons, not_or] at hmem
            rw [f3 hmem.2, applyField_frame_md5sum hd v (fun he => hmem.1 he.symm)]
          · intro hmem
            rw [List.mem_cons, not_or] at hmem
            rw [f4 hmem.2, applyField_frame_topic hd v (fun he => hmem.1 he.symm)]
          · intro hmem
            rw [List.mem_cons, not_or] at hmem
            rw [f5 hmem.2, applyField_frame_type hd v (fun he => hmem.1 he.symm)]
          · intro hmem
            rw [List.mem_cons, not_or] at hmem
            rw [f6 hmem.2, applyField_frame_latching hd v (fun he => hmem.1 he.symm)]
          · intro hmem
            rw [List.mem_cons, not_or] at hmem
            rw [f7 hmem.2, applyField_frame_tcp hd v (fun he => hmem.1 he.symm)]

/-- C8: fields absent from the wire keep their defaults: a freshly
constructed record has empty text fields and false booleans, and for any
buffer that decodes successfully with field-name trace `ks`, every
recognized field whose name does not occur in `ks` holds its default in
the result — in particular a header without a tcp_nodelay field decodes
with tcp_nodelay = false. -/
theorem absent_fields_default (b : List Nat) (h : ConnectionHeader)
    (ks : List (List Nat)) (hok : from_bytes b = .ok h)
    (hks : headerKeys b = .ok ks) :
    (ConnectionHeader.default =
      { caller_id := [], latching := false, msg_definition := [], md5sum := [],
        topic := [], topic_type := [], tcp_nodelay := false }) ∧
    (keyCallerid ∉ ks → h.caller_id = []) ∧
    (keyMessageDefinition ∉ ks → h.msg_definition = []) ∧
    (keyMd5sum ∉ ks → h.md5sum = []) ∧
    (keyTopic ∉ ks → h.topic = []) ∧
    (keyType ∉ ks → h.topic_type = []) ∧
    (keyLatching ∉ ks → h.latching = false) ∧
    (keyTcpNodelay ∉ ks → h.tcp_nodelay = false) := by
  rw [from_bytes] at hok
  split at hok
  case _ x hh heq =>
    simp only [Except.ok.injEq] at hok
    subst hok
    rw [parse] at heq
    split at heq
    next e h1 => exact absurd heq (by simp)
    next i1 len h1 =>
      obtain ⟨ks2, hkeys, f1, f2, f3, f4, f5, f6, f7⟩ :=
        parseFieldsF_keys i1.length len i1 ConnectionHeader.default x hh heq
      have hks2 : ks2 = ks := by
        simp only [headerKeys, h1, hkeys, Except.ok.injEq] at hks
        exact hks
      subst hks2
      exact ⟨rfl, f1, f2, f3, f4, f5, f6, f7⟩
  case _ e heq => exact absurd hok (by simp)

/-- Witness for C8: a wire header holding only a latching field decodes
with every other field at its default. -/
theorem absent_fields_default_witness :
    (ConnectionHeader.default =
      { caller_id := [], latching := false, msg_definition := [], md5sum := [],
        topic := [], topic_type := [], tcp_nodelay := false }) ∧
    (keyCallerid ∉ [keyLatching] →
      ({ ConnectionHeader.default with latching := true }).caller_id = []) ∧
    (keyMessageDefinition ∉ [keyLatching] →
      ({ ConnectionHeader.default with latching := true }).msg_definition = []) ∧
    (keyMd5sum ∉ [keyLatching] →
      ({ ConnectionHeader.default with latching := true }).md5sum = []) ∧
    (keyTopic ∉ [keyLatching] →
      ({ ConnectionHeader.default with latching := true }).topic = []) ∧
    (keyType ∉ [keyLatching] →
      ({ ConnectionHeader.default with latching := true }).topic_type = []) ∧
    (keyLatching ∉ [keyLatching] →
      ({ ConnectionHeader.default with latching := true }).latching = false) ∧
    (keyTcpNodelay ∉ [keyLatching] →
      ({ ConnectionHeader.default with latching := true }).tcp_nodelay = false) :=
  absent_fields_default (latchingWire [49])
    { ConnectionHeader.default with latching := true } [keyLatching] (by rfl) (by rfl)

theorem ancestorsFrom_mem_length {p : List String} :
    ∀ k (d : List String), d ∈ ancestorsFrom p k → d.length ≤ k := by
  intro k
  induction k with
  | zero =>
    intro d hd
    simp only [ancestorsFrom, List.mem_singleton] at hd
    subst hd
    simp
  | succ n ih =>
    intro d hd
    simp only [ancestorsFrom, List.mem_cons] at hd
    rcases hd with rfl | hd
    · simp only [List.length_take]; omega
    · exact le_trans (ih d hd) (Nat.le_succ n)

theorem ancestorsFrom_pairwise (p : List String) :
    ∀ k, k ≤ p.length →
      (ancestorsFrom p k).Pairwise (fun a b => b.length < a.length) := by
  intro k
  induction k with
  | zero => intro _; simp [ancestorsFrom]
  | succ n ih =>
    intro hk
    simp only [ancestorsFrom]
    refine List.Pairwise.cons ?_ (ih (by omega))
    intro d hd
    have h1 : d.length ≤ n := ancestorsFrom_mem_length n d hd
    have h2 : (p.take (n + 1)).length = n + 1 := by
      rw [List.length_take]
      omega
    omega

/-- The last element of a strictly length-decreasing list is its unique
length-minimal member. -/
theorem getLast_of_min :
    ∀ (l : List (List String)) (d : List String),
      l.Pairwise (fun a b => b.length < a.length) → d ∈ l →
      (∀ x ∈ l, d.length ≤ x.length) → l.getLast? = some d := by
  intro l
  induction l with
  | nil => intro d _ hd _; simp at hd
  | cons x xs ih =>
    intro d hpw hd hmin
    cases xs with
    | nil =>
      simp only [List.mem_singleton] at hd
      subst hd
      rfl
    | cons y ys =>
      rw [List.getLast?_cons_cons]
      have hdm : d ∈ y :: ys := by
        rcases List.mem_cons.mp hd with rfl | hmem
        · have h1 : y.length < d.length := (List.pairwise_cons.mp hpw).1 y (by simp)
          have h2 : d.length ≤ y.length := hmin y (by simp)
          omega
        · exact hmem
      exact ih d (List.Pairwise.of_cons hpw) hdm
        (fun x2 hx2 => hmin x2 (List.mem_cons_of_mem x hx2))

/-- C9 counterexample: with nested packages (both a/package.xml and
a/b/package.xml exist) the file a/b/f.msg resolves to the outermost
package directory name "a", not the nearest marker-bearing directory "b":
the loop in `find_package_from_path` never exits early, so the last
(highest) match wins. -/
theorem find_package_nearest_counterexample :
    nestedPkgFs (["a", "b"] ++ ["package.xml"]) = true ∧
      nestedPkgFs (["a", "b", "f.msg"] ++ ["package.xml"]) = false ∧
      ["a", "b"] ∈ ancestors ["a", "b", "f.msg"] ∧
      find_package_from_path nestedPkgFs ["a", "b", "f.msg"] = some "a" ∧
      find_package_from_path nestedPkgFs ["a", "b", "f.msg"] ≠ some "b" := by
  refine ⟨rfl, rfl, by decide, rfl, by decide⟩

/-- C9 amended: the discovery walks upward from the file through all of
its ancestors and returns the last path component of the outermost
(closest to the root) ancestor directory containing package.xml; it
fails fatally (modelled as none) when no ancestor contains package.xml. -/
theorem find_package_outermost (fs : List String → Bool) (e d : List String) :
    ((∀ a ∈ ancestors e, fs (a ++ ["package.xml"]) = false) →
      find_package_from_path fs e = none) ∧
    (d ∈ ancestors e → fs (d ++ ["package.xml"]) = true →
      (∀ a ∈ ancestors e, fs (a ++ ["package.xml"]) = true → d.length ≤ a.length) →
      find_package_from_path fs e = d.getLast?) := by
  constructor
  · intro hall
    rw [find_package_from_path]
    have hnil : (ancestors e).filter (fun dir => fs (dir ++ ["package.xml"])) = [] := by
      rw [List.filter_eq_nil_iff]
      intro a ha
      simp [hall a ha]
    rw [hnil]
    rfl
  · intro hd hfs hmin
    rw [find_package_from_path]
    have hpw : ((ancestors e).filter (fun dir => fs (dir ++ ["package.xml"]))).Pairwise
        (fun a b => b.length < a.length) :=
      List.Pairwise.filter _ (ancestorsFrom_pairwise e e.length (Nat.le_refl _))
    have hdm : d ∈ (ancestors e).filter (fun dir => fs (dir ++ ["package.xml"])) := by
      rw [List.mem_filter]
      exact ⟨hd, hfs⟩
    have hmin2 : ∀ x ∈ (ancestors e).filter (fun dir => fs (dir ++ ["package.xml"])),
        d.length ≤ x.length := by
      intro x hx
      rw [List.mem_filter] at hx
      exact hmin x hx.1 hx.2
    rw [getLast_of_min _ d hpw hdm hmin2]

/-- Witness for C9 at the nested-package scenario: the outermost matching
ancestor a is returned. -/
theorem find_package_outermost_witness :
    find_package_from_path nestedPkgFs ["a", "b", "f.msg"] =
      (["a"] : List String).getLast? :=
  (find_package_outermost nestedPkgFs ["a", "b", "f.msg"] ["a"]).2
    (by decide) (by decide) (by decide)

/-- The dispatch ignores a field whose name matches no recognized field:
the record is returned unchanged (the source only logs a warning). -/
theorem applyField_unknown (h : ConnectionHeader) (k v : List Nat)
    (h1 : k ≠ keyCallerid) (h2 : k ≠ keyMessageDefinition) (h3 : k ≠ keyMd5sum)
    (h4 : k ≠ keyTopic) (h5 : k ≠ keyType) (h6 : k ≠ keyLatching)
    (h7 : k ≠ keyTcpNodelay) : applyField h k v = h := by
  unfold applyField
  split_ifs <;> simp_all

/-- Decoding a well-formed wire block of good fields succeeds and folds
the dispatch over the fields in order. -/
theorem from_bytes_fieldsWire (fs : List (List Nat × List Nat))
    (hg : ∀ k v, (k, v) ∈ fs → 61 ∉ k ∧ utf8Valid k = true ∧ utf8Valid v = true ∧
      k.length + 1 + v.length < 4294967292)
    (hlen : (encodeFieldsList fs).length < 4294967296) :
    from_bytes (fieldsWire fs) =
      .ok (fs.foldl (fun h kv => applyField h kv.1 kv.2) ConnectionHeader.default) := by
  have henc := parseFieldsF_encode fs [] ConnectionHeader.default
    (encodeFieldsList fs).length hg (by simp)
  rw [List.append_nil] at henc
  have hmod : (encodeFieldsList fs).length % 4294967296 =
      (encodeFieldsList fs).length := Nat.mod_eq_of_lt hlen
  simp only [fieldsWire, from_bytes, parse, le_u32_le32, hmod, henc]

/-- C6: a well-formed header block containing an additional field whose
name is valid UTF-8 but not one of the recognized names still decodes
successfully; the unknown field is ignored (the dispatch leaves the
record unchanged, the source only logs it) and the result is exactly the
record obtained from the recognized fields alone, each populated
normally. -/
theorem unknown_field_tolerated (fs1 fs2 : List (List Nat × List Nat))
    (k v : List Nat)
    (hg : ∀ k2 v2, (k2, v2) ∈ fs1 ++ (k, v) :: fs2 → 61 ∉ k2 ∧
      utf8Valid k2 = true ∧ utf8Valid v2 = true ∧
      k2.length + 1 + v2.length < 4294967292)
    (hunknown : k ≠ keyCallerid ∧ k ≠ keyMessageDefinition ∧ k ≠ keyMd5sum ∧
      k ≠ keyTopic ∧ k ≠ keyType ∧ k ≠ keyLatching ∧ k ≠ keyTcpNodelay)
    (hlen : (encodeFieldsList (fs1 ++ (k, v) :: fs2)).length < 4294967296) :
    from_bytes (fieldsWire (fs1 ++ (k, v) :: fs2)) =
      .ok ((fs1 ++ fs2).foldl (fun h kv => applyField h kv.1 kv.2)
        ConnectionHeader.default) := by
  obtain ⟨h1, h2, h3, h4, h5, h6, h7⟩ := hunknown
  rw [from_bytes_fieldsWire _ hg hlen]
  have hskip : ∀ h : ConnectionHeader, applyField h k v = h := fun h =>
    applyField_unknown h k v h1 h2 h3 h4 h5 h6 h7
  simp only [List.foldl_append, List.foldl_cons, hskip]

/-- Witness for C6: a block holding latching=1, an unknown field foo=b,
and topic=/t decodes to the record with latching and topic set and the
unknown field ignored. -/
theorem unknown_field_tolerated_witness :
    from_bytes (fieldsWire [(keyLatching, [49]), ([102, 111, 111], [98]),
        (keyTopic, [47, 116])]) =
      .ok ((([(keyLatching, [49])] ++ [(keyTopic, [47, 116])] :
          List (List Nat × List Nat))).foldl
        (fun h kv => applyField h kv.1 kv.2) ConnectionHeader.default) :=
  unknown_field_tolerated [(keyLatching, [49])] [(keyTopic, [47, 116])]
    [102, 111, 111] [98]
    (by
      intro k2 v2 hm
      simp only [List.cons_append, List.nil_append, List.mem_cons,
        List.not_mem_nil, or_false, Prod.mk.injEq] at hm
      rcases hm with ⟨rfl, rfl⟩ | ⟨rfl, rfl⟩ | ⟨rfl, rfl⟩ <;>
        exact ⟨by decide, by decide, by decide, by decide⟩)
    (by decide) (by decide)
